import Mathlib

/-!
Shallow embedding of the `absces` batch image-normalization scripts
(`center_image_batch.py` and `create_thumbnails.py`) and proofs about the
numeric image-correction and decision logic.

Conventions of the embedding:
* `Dim` is a PIL `img.size`, i.e. a `(width, height)` pair of naturals.
* An image is a row-major list of rows of RGB pixels (8-bit samples are
  naturals; real inputs are `≤ 255`).
* Python integers are `Nat`/`Int` (Python `//` is floor division, `Int.fdiv`).
* Exact nonnegative rationals are represented as numerator/denominator pairs
  of naturals (never normalized, so every operation is plain integer
  arithmetic and kernel-computable).
* `numpy` float64 arithmetic: a float64 operation on exactly representable
  operands returns the correctly rounded (round to nearest, ties to even)
  value of the exact rational result.  `fl64N` below computes that rounding
  exactly on fraction pairs, and is used where the rounding is observable
  (the white-balance scale and product).  For the auto-levels expression
  `(v - min) * 255.0 / (max - min)` the float64 result is the correctly
  rounded value of an exact rational `p / q` with `p ≤ 65025`, `q ≤ 255`;
  such a quotient is exactly representable when it is an integer and
  otherwise lies at distance `≥ 1/255` from every integer while the rounding
  error is `< 2^-40`, so truncating the float64 value coincides with the
  exact rational floor, i.e. with truncating natural division.  The
  auto-levels embedding therefore uses exact arithmetic.
-/

namespace Absces

/-- Image dimensions `(width, height)`, as returned by PIL `img.size`. -/
abbrev Dim : Type := Nat × Nat

/-- An RGB pixel `(r, g, b)`; samples of real images are 8-bit (`≤ 255`). -/
abbrev Pix : Type := Nat × Nat × Nat

/-- An in-memory raster: a list of rows, each row a list of pixels. -/
abbrev Img : Type := List (List Pix)

/-- All pixels of an image, row-major. -/
def pixels (img : Img) : List Pix := img.flatten

/-- Width of an image: the length of its first row (images are rectangular). -/
def imgWidth (img : Img) : Nat := (img.headD []).length

/-- Height of an image: its number of rows. -/
def imgHeight (img : Img) : Nat := img.length

/-! ### `center_image_batch.py`: size histogram -/

/-- One step of the size-histogram loop: `sizes[size] = sizes.get(size, 0) + 1`
on a Python dict increments an existing key in place and otherwise appends the
new key at the end (dicts preserve insertion order). -/
def bump : List (Dim × Nat) → Dim → List (Dim × Nat)
  | [], s => [(s, 1)]
  | (k, c) :: rest, s =>
      if k = s then (k, c + 1) :: rest else (k, c) :: bump rest s

/-- The size histogram accumulated by the scan loop of
`get_portrait_canvas_size`, in dict insertion order. -/
def tally (l : List Dim) : List (Dim × Nat) := l.foldl bump []

/-- Python `max(items, key=lambda x: x[1])`: scans the items in order keeping
the current best and replacing it only on a strictly larger key, so among ties
the first item wins. -/
def pickMax (h : Dim × Nat) (t : List (Dim × Nat)) : Dim × Nat :=
  t.foldl (fun b x => if b.2 < x.2 then x else b) h

/-- Embedding of `get_portrait_canvas_size`, on the list of sizes of the successfully
decoded reference images: returns `none` when the histogram is empty
(`print error; return None`), otherwise the most common size, with the axes
swapped to portrait when the winner is landscape (`width > height`). -/
def get_portrait_canvas_size (l : List Dim) : Option Dim :=
  match tally l with
  | [] => none
  | h :: t =>
      let mc := (pickMax h t).1
      some (if mc.2 < mc.1 then (mc.2, mc.1) else mc)

/-! ### `center_image_batch.py`: centering on a white canvas -/

/-- The centering offsets `((canvas_width - target_width) // 2,
(canvas_height - target_height) // 2)`; Python `//` is floor division. -/
def center_offsets (canvasSize targetSize : Dim) : Int × Int :=
  (((canvasSize.1 : Int) - (targetSize.1 : Int)).fdiv 2,
   ((canvasSize.2 : Int) - (targetSize.2 : Int)).fdiv 2)

/-- The pure white fill of the new canvas, `(255, 255, 255)`. -/
def whitePix : Pix := (255, 255, 255)

/-- Pixel lookup at signed coordinates; `none` outside the raster. -/
def pixAt (img : Img) (x y : Int) : Option Pix :=
  if 0 ≤ x ∧ 0 ≤ y then (img[y.toNat]?).bind fun row => row[x.toNat]? else none

/-- Embedding of `center_image_on_canvas` (image part): a new canvas-sized image filled
with `(255, 255, 255)` (`Image.new('RGB', canvas_size, (255, 255, 255))`),
with the source pasted at the centering offsets; PIL `paste` silently clips
the parts of the source that fall outside the canvas. -/
def center_image_on_canvas (src : Img) (canvasSize : Dim) : Img :=
  (List.range canvasSize.2).map fun (y : Nat) =>
    (List.range canvasSize.1).map fun (x : Nat) =>
      match pixAt src
          ((x : Int) - (center_offsets canvasSize (imgWidth src, imgHeight src)).1)
          ((y : Int) - (center_offsets canvasSize (imgWidth src, imgHeight src)).2) with
      | some p => p
      | none => whitePix

/-- The file-existence guard of `center_image_on_canvas`: the function returns
`None` when the target file is missing, otherwise the composited image. -/
def center_image_run (targetExists : Bool) (src : Img) (canvasSize : Dim) :
    Option Img :=
  if targetExists then some (center_image_on_canvas src canvasSize) else none

/-- Outcome of one invocation of the script. -/
inductive RunResult where
  | exited (code : Nat)
  | success (out : Img)
deriving DecidableEq

/-- The error-handling skeleton of `main` after argument parsing:
`sys.exit(1)` when `get_portrait_canvas_size` returns `None`, `sys.exit(1)`
when centering fails, success otherwise. -/
def mainRun (dims : List Dim) (targetExists : Bool) (target : Img) : RunResult :=
  match get_portrait_canvas_size dims with
  | none => RunResult.exited 1
  | some canvasSize =>
      match center_image_run targetExists target canvasSize with
      | none => RunResult.exited 1
      | some out => RunResult.success out

/-! ### `create_thumbnails.py`: rotation policy -/

/-- Embedding of `needs_rotation`: `width == 4000 and width > height` on `img.size`. -/
def needs_rotation (size : Dim) : Bool :=
  size.1 == 4000 && decide (size.2 < size.1)

/-! ### Exact model of IEEE-754 float64 rounding

`numpy` float64 operations return the correctly rounded value of the exact
rational result of the operation (round to nearest, ties to even).  The
definitions below compute that rounding exactly on numerator/denominator
pairs of naturals, for positive values in the normal range, which covers
every value the scripts produce. -/

/-- Round the nonnegative fraction `a / b` (with `0 < b`) to the nearest
integer, ties to even. -/
def rneN (a b : Nat) : Nat :=
  if 2 * (a % b) < b then a / b
  else if b < 2 * (a % b) then a / b + 1
  else if a / b % 2 = 0 then a / b else a / b + 1

/-- For `0 < q ≤ p` (and enough fuel): the largest `k` with
`2 ^ k * q ≤ p`, i.e. `⌊log₂ (p / q)⌋`. -/
def log2DownN : Nat → Nat → Nat → Nat
  | 0, _, _ => 0
  | fuel + 1, p, q => if p < 2 * q then 0 else log2DownN fuel p (2 * q) + 1

/-- For `0 < p < q` (and enough fuel): the smallest `j` with
`q ≤ 2 ^ j * p`, i.e. `-⌊log₂ (p / q)⌋`. -/
def log2UpN : Nat → Nat → Nat → Nat
  | 0, _, _ => 0
  | fuel + 1, p, q => if q ≤ p then 0 else log2UpN fuel (2 * p) q + 1

/-- The float64 value nearest to the nonnegative fraction `p / q` (normal
range, no overflow), as a fraction pair: the significand
`p / q / 2 ^ (⌊log₂ (p / q)⌋ - 52)` is rounded to the nearest integer, ties
to even.  4200 doublings cover the whole float64 exponent range. -/
def fl64N (p q : Nat) : Nat × Nat :=
  if p = 0 then (0, 1)
  else if q ≤ p then
    let k := log2DownN 4200 p q
    if k ≤ 52 then (rneN (p * 2 ^ (52 - k)) q, 2 ^ (52 - k))
    else (rneN p (q * 2 ^ (k - 52)) * 2 ^ (k - 52), 1)
  else
    let j := log2UpN 4200 p q
    (rneN (p * 2 ^ (52 + j)) q, 2 ^ (52 + j))

/-! ### `create_thumbnails.py`: white patch white balance and auto levels -/

/-- Channel maximum, `np.max` (0 on an empty raster, where `numpy` would
raise; the scripts never take the maximum of an empty image). -/
def maxCh : List Nat → Nat
  | [] => 0
  | v :: vs => vs.foldl max v

/-- Channel minimum, `np.min` (0 on an empty raster, as for `maxCh`). -/
def minCh : List Nat → Nat
  | [] => 0
  | v :: vs => vs.foldl min v

/-- The red samples of an image, row-major. -/
def reds (img : Img) : List Nat := (pixels img).map fun p => p.1

/-- The green samples of an image, row-major. -/
def greens (img : Img) : List Nat := (pixels img).map fun p => p.2.1

/-- The blue samples of an image, row-major. -/
def blues (img : Img) : List Nat := (pixels img).map fun p => p.2.2

/-- Embedding of `np.uint8(np.clip(p / q, 0, 255))` for a nonnegative fraction `p / q`
with `0 < q`: the cast truncates toward zero, which after the clip is the
floor, i.e. truncating natural division capped at 255. -/
def toByteN (p q : Nat) : Nat := min (p / q) 255

/-- The per-channel scale of `apply_white_patch_white_balance`:
`255.0 / max_c if max_c > 0 else 1`, a float64 division. -/
def wbScaleN (m : Nat) : Nat × Nat := if 0 < m then fl64N 255 m else (1, 1)

/-- One sample of the white-balance output: the sample is multiplied by its
channel scale in float64 (`balanced[:, :, c] *= scale_c`), then the array is
clipped to `[0, 255]` and cast to `np.uint8`. -/
def wbSample (s : Nat × Nat) (v : Nat) : Nat :=
  toByteN (fl64N (v * s.1) s.2).1 (fl64N (v * s.1) s.2).2

/-- One pixel of the white-balance output. -/
def wbPix (sr sg sb : Nat × Nat) (p : Pix) : Pix :=
  (wbSample sr p.1, wbSample sg p.2.1, wbSample sb p.2.2)

/-- Embedding of `apply_white_patch_white_balance` on an RGB image. -/
def apply_white_patch_white_balance (img : Img) : Img :=
  img.map fun row =>
    row.map (wbPix (wbScaleN (maxCh (reds img))) (wbScaleN (maxCh (greens img)))
      (wbScaleN (maxCh (blues img))))

/-- One sample of `apply_auto_levels`: channels with `max_val > min_val` are
remapped by `(v - min_val) * 255.0 / (max_val - min_val)`, other channels are
left as they are; the whole array is then clipped to `[0, 255]` and cast to
`np.uint8`.  Exact natural division is byte-equivalent to the float64
evaluation here (see the module docstring); the cap at 255 is the clip and
the truncated subtraction agrees with the clip at 0. -/
def levelMap (m M v : Nat) : Nat :=
  if m < M then min ((v - m) * 255 / (M - m)) 255 else min v 255

/-- One pixel of the auto-levels output, given the three channel ranges. -/
def alPix (mr Mr mg Mg mb Mb : Nat) (p : Pix) : Pix :=
  (levelMap mr Mr p.1, levelMap mg Mg p.2.1, levelMap mb Mb p.2.2)

/-- Embedding of `apply_auto_levels` on an RGB image: each of the three channels is
stretched independently by `levelMap` with that channel's own min and max. -/
def apply_auto_levels (img : Img) : Img :=
  img.map (List.map (alPix (minCh (reds img)) (maxCh (reds img))
    (minCh (greens img)) (maxCh (greens img))
    (minCh (blues img)) (maxCh (blues img))))

/-! ### `create_thumbnails.py`: thumbnail policy -/

/-- The expected thumbnail size: `int(original_width * scale_factor)` per
axis, with the scale factor the exact rational `sn / sd`.  `int()` truncates
toward zero, which for a nonnegative product is the floor, i.e. truncating
natural division.  The script's float literal `0.2` is `(1, 5)` here: the
float64 evaluation of `int(w * 0.2)` equals `w // 5` for every realistic
width, since `0.2` rounds to a float64 slightly above `1/5` and the product
never falls below the exact multiple. -/
def expected_thumb_size (d : Dim) (sn sd : Nat) : Dim :=
  (d.1 * sn / sd, d.2 * sn / sd)

/-- The thumbnail size check of `check_and_fix_thumbnails`:
`abs(thumb_w - expected_w) <= tol and abs(thumb_h - expected_h) <= tol`
on Python integers (the script uses `tol = 1`). -/
def is_thumbnail_current (thumb expected : Dim) (tol : Nat) : Bool :=
  decide (((thumb.1 : Int) - (expected.1 : Int)).natAbs ≤ tol) &&
    decide (((thumb.2 : Int) - (expected.2 : Int)).natAbs ≤ tol)

/-! ### Helper lemmas: channel minima and maxima -/

lemma le_foldl_max_init (vs : List Nat) (a : Nat) : a ≤ vs.foldl max a := by
  induction vs generalizing a with
  | nil => exact Nat.le_refl a
  | cons x t ih => exact Nat.le_trans (Nat.le_max_left a x) (ih (max a x))

lemma le_foldl_max (vs : List Nat) (a v : Nat) (h : v ∈ vs) :
    v ≤ vs.foldl max a := by
  induction vs generalizing a with
  | nil => cases h
  | cons x t ih =>
      rcases List.mem_cons.mp h with rfl | hv
      · exact Nat.le_trans (Nat.le_max_right a v) (le_foldl_max_init t (max a v))
      · exact ih (max a x) hv

lemma foldl_max_cases (vs : List Nat) (a : Nat) :
    vs.foldl max a = a ∨ vs.foldl max a ∈ vs := by
  induction vs generalizing a with
  | nil => exact Or.inl rfl
  | cons x t ih =>
      rcases ih (max a x) with hcase | hcase
      · rcases max_choice a x with hax | hax
        · exact Or.inl (by rw [List.foldl_cons, hcase, hax])
        · exact Or.inr (by rw [List.foldl_cons, hcase, hax]; exact List.mem_cons_self x t)
      · exact Or.inr (List.mem_cons_of_mem x hcase)

lemma foldl_min_init_le (vs : List Nat) (a : Nat) : vs.foldl min a ≤ a := by
  induction vs generalizing a with
  | nil => exact Nat.le_refl a
  | cons x t ih => exact Nat.le_trans (ih (min a x)) (Nat.min_le_left a x)

lemma foldl_min_le (vs : List Nat) (a v : Nat) (h : v ∈ vs) :
    vs.foldl min a ≤ v := by
  induction vs generalizing a with
  | nil => cases h
  | cons x t ih =>
      rcases List.mem_cons.mp h with rfl | hv
      · exact Nat.le_trans (foldl_min_init_le t (min a v)) (Nat.min_le_right a v)
      · exact ih (min a x) hv

lemma foldl_min_cases (vs : List Nat) (a : Nat) :
    vs.foldl min a = a ∨ vs.foldl min a ∈ vs := by
  induction vs generalizing a with
  | nil => exact Or.inl rfl
  | cons x t ih =>
      rcases ih (min a x) with hcase | hcase
      · rcases min_choice a x with hax | hax
        · exact Or.inl (by rw [List.foldl_cons, hcase, hax])
        · exact Or.inr (by rw [List.foldl_cons, hcase, hax]; exact List.mem_cons_self x t)
      · exact Or.inr (List.mem_cons_of_mem x hcase)

lemma le_maxCh (vs : List Nat) (v : Nat) (h : v ∈ vs) : v ≤ maxCh vs := by
  cases vs with
  | nil => cases h
  | cons x t =>
      rcases List.mem_cons.mp h with rfl | hv
      · exact le_foldl_max_init t v
      · exact le_foldl_max t x v hv

lemma maxCh_mem (vs : List Nat) (h : vs ≠ []) : maxCh vs ∈ vs := by
  cases vs with
  | nil => exact absurd rfl h
  | cons x t =>
      rcases foldl_max_cases t x with hcase | hcase
      · show t.foldl max x ∈ x :: t
        rw [hcase]; exact List.mem_cons_self x t
      · exact List.mem_cons_of_mem x hcase

lemma minCh_le (vs : List Nat) (v : Nat) (h : v ∈ vs) : minCh vs ≤ v := by
  cases vs with
  | nil => cases h
  | cons x t =>
      rcases List.mem_cons.mp h with rfl | hv
      · exact foldl_min_init_le t v
      · exact foldl_min_le t x v hv

lemma minCh_mem (vs : List Nat) (h : vs ≠ []) : minCh vs ∈ vs := by
  cases vs with
  | nil => exact absurd rfl h
  | cons x t =>
      rcases foldl_min_cases t x with hcase | hcase
      · show t.foldl min x ∈ x :: t
        rw [hcase]; exact List.mem_cons_self x t
      · exact List.mem_cons_of_mem x hcase

/-! ### Helper lemmas: the histogram is nonempty on nonempty input -/

lemma bump_ne_nil (acc : List (Dim × Nat)) (s : Dim) : bump acc s ≠ [] := by
  cases acc with
  | nil => simp [bump]
  | cons kc rest =>
      obtain ⟨k, c⟩ := kc
      by_cases hk : k = s <;> simp [bump, hk]

lemma foldl_bump_ne_nil (l : List Dim) (acc : List (Dim × Nat)) (h : acc ≠ []) :
    l.foldl bump acc ≠ [] := by
  induction l generalizing acc with
  | nil => exact h
  | cons x t ih => exact ih (bump acc x) (bump_ne_nil acc x)

/-! ### Claim theorems -/

/-- C5: `needsRotation` returns true exactly for width 4000 landscape
dimensions; in particular `(4000, 3000)` rotates, `(4000, 4000)` and
`(3000, 4000)` do not, and no square ever rotates. -/
theorem C5_needs_rotation_rule (d : Dim) :
    (needs_rotation d = true ↔ d.1 = 4000 ∧ d.2 < d.1) ∧
    needs_rotation (4000, 3000) = true ∧
    needs_rotation (4000, 4000) = false ∧
    needs_rotation (3000, 4000) = false ∧
    (d.1 = d.2 → needs_rotation d = false) := by
  refine ⟨?_, by decide, by decide, by decide, ?_⟩
  · simp [needs_rotation]
  · intro hsq
    simp [needs_rotation, hsq]

/-- Witness for C5 at concrete inputs. -/
theorem C5_needs_rotation_rule_witness :
    needs_rotation (4000, 3999) = true ∧ needs_rotation (123, 123) = false :=
  ⟨(C5_needs_rotation_rule (4000, 3999)).1.mpr ⟨rfl, by decide⟩,
   (C5_needs_rotation_rule (123, 123)).2.2.2.2 rfl⟩

/-- C7: `expectedThumbSize` is the floor of each axis scaled by the exact
rational `sn / sd` — the result `t` satisfies `t ≤ axis * scale < t + 1` on
each axis — and `expectedThumbSize((1000, 2000), 1/5) = (200, 400)` (the
script's float literal `0.2` behaves as the exact rational `1/5`). -/
theorem C7_expected_thumb_size_floor (d : Dim) (sn sd : Nat)
    (hsn : 0 < sn) (hsd : 0 < sd) :
    (((expected_thumb_size d sn sd).1 : ℚ) ≤ (d.1 : ℚ) * ((sn : ℚ) / (sd : ℚ)) ∧
      (d.1 : ℚ) * ((sn : ℚ) / (sd : ℚ)) < ((expected_thumb_size d sn sd).1 : ℚ) + 1) ∧
    (((expected_thumb_size d sn sd).2 : ℚ) ≤ (d.2 : ℚ) * ((sn : ℚ) / (sd : ℚ)) ∧
      (d.2 : ℚ) * ((sn : ℚ) / (sd : ℚ)) < ((expected_thumb_size d sn sd).2 : ℚ) + 1) ∧
    expected_thumb_size (1000, 2000) 1 5 = (200, 400) := by
  have hsd0 : (0 : ℚ) < (sd : ℚ) := by exact_mod_cast hsd
  have key : ∀ a : Nat, ((a * sn / sd : Nat) : ℚ) ≤ (a : ℚ) * ((sn : ℚ) / (sd : ℚ)) ∧
      (a : ℚ) * ((sn : ℚ) / (sd : ℚ)) < ((a * sn / sd : Nat) : ℚ) + 1 := by
    intro a
    have hmod := Nat.div_add_mod (a * sn) sd
    have hmlt : (a * sn) % sd < sd := Nat.mod_lt _ hsd
    have heq : (a : ℚ) * ((sn : ℚ) / (sd : ℚ)) = ((a * sn : Nat) : ℚ) / (sd : ℚ) := by
      push_cast; ring
    constructor
    · rw [heq, le_div_iff₀ hsd0]
      have : (a * sn / sd) * sd ≤ a * sn := Nat.div_mul_le_self _ _
      exact_mod_cast this
    · rw [heq, div_lt_iff₀ hsd0]
      have hstep : a * sn < (a * sn / sd + 1) * sd := by
        calc a * sn = sd * (a * sn / sd) + a * sn % sd := (Nat.div_add_mod _ _).symm
          _ < sd * (a * sn / sd) + sd := by omega
          _ = (a * sn / sd + 1) * sd := by ring
      exact_mod_cast hstep
  exact ⟨key d.1, key d.2, by decide⟩

/-- Witness for C7 at the thumbnail example of the spec. -/
theorem C7_expected_thumb_size_floor_witness :
    expected_thumb_size (1000, 2000) 1 5 = (200, 400) :=
  (C7_expected_thumb_size_floor (1000, 2000) 1 5 (by decide) (by decide)).2.2

/-- C8: the thumbnail size check with tolerance 1 accepts exactly the sizes
within one pixel per axis of the expected size; in particular `(201, 399)`
is accepted against `(200, 400)` and `(210, 400)` is rejected. -/
theorem C8_is_thumbnail_current_tolerance (t e : Dim) :
    (is_thumbnail_current t e 1 = true ↔
      |(t.1 : Int) - (e.1 : Int)| ≤ 1 ∧ |(t.2 : Int) - (e.2 : Int)| ≤ 1) ∧
    is_thumbnail_current (201, 399) (200, 400) 1 = true ∧
    is_thumbnail_current (210, 400) (200, 400) 1 = false := by
  refine ⟨?_, by decide, by decide⟩
  simp only [is_thumbnail_current, Bool.and_eq_true, decide_eq_true_eq,
    Int.abs_eq_natAbs]
  omega

/-- Witness for C8 at a concrete accepted size. -/
theorem C8_is_thumbnail_current_tolerance_witness :
    is_thumbnail_current (100, 100) (101, 99) 1 = true :=
  (C8_is_thumbnail_current_tolerance (100, 100) (101, 99)).1.mpr (by decide)

/-- C9: `computeCanonicalCanvas` fails exactly on an empty input sequence
(an empty directory, or every decode failed, both yield an empty size list),
and in that case the single-image centering workflow exits with the nonzero
code 1 instead of proceeding. -/
theorem C9_empty_input_fails (dims : List Dim) (te : Bool) (img : Img) :
    (get_portrait_canvas_size dims = none ↔ dims = []) ∧
    (dims = [] → mainRun dims te img = RunResult.exited 1 ∧ (1 : Nat) ≠ 0) := by
  constructor
  · constructor
    · intro hnone
      by_contra hne
      obtain ⟨a, l, rfl⟩ := List.exists_cons_of_ne_nil hne
      have htne : tally (a :: l) ≠ [] := by
        show (a :: l).foldl bump [] ≠ []
        rw [List.foldl_cons]
        exact foldl_bump_ne_nil l (bump [] a) (bump_ne_nil [] a)
      rcases he : tally (a :: l) with _ | ⟨h, t⟩
      · exact htne he
      · simp only [get_portrait_canvas_size, he] at hnone
        exact Option.noConfusion hnone
    · intro hd; subst hd; rfl
  · intro hd; subst hd
    exact ⟨rfl, by decide⟩

/-- Witness for C9: the empty batch exits with code 1. -/
theorem C9_empty_input_fails_witness :
    mainRun [] true [[(1, 2, 3)]] = RunResult.exited 1 ∧ (1 : Nat) ≠ 0 :=
  (C9_empty_input_fails [] true [[(1, 2, 3)]]).2 rfl

/-- C2 (code bug): on an RGB image whose channels are entirely 25, white
patch white balance produces 254, not the 255 required by the claim (and by
the code's own comment "Calculate scaling factors to make max values =
255"): `255.0 / 25` rounds to the float64 `10.19999999999999928…`, the
product `25 * scale` rounds to `254.99999999999997…`, and the `np.uint8`
cast truncates it to 254. -/
theorem C2_white_patch_failing_input :
    apply_white_patch_white_balance [[(25, 25, 25)]] = [[(254, 254, 254)]] ∧
    (254 : Nat) ≠ 255 := by
  constructor
  · decide
  · decide

/-- C10: both white patch white balance and auto levels preserve the shape
of the raster — the row count and every row length (hence width and height)
are unchanged. -/
theorem C10_shape_preserved (img : Img) :
    (apply_white_patch_white_balance img).map List.length = img.map List.length ∧
    (apply_auto_levels img).map List.length = img.map List.length ∧
    imgWidth (apply_white_patch_white_balance img) = imgWidth img ∧
    imgHeight (apply_white_patch_white_balance img) = imgHeight img ∧
    imgWidth (apply_auto_levels img) = imgWidth img ∧
    imgHeight (apply_auto_levels img) = imgHeight img := by
  refine ⟨?_, ?_, ?_, ?_, ?_, ?_⟩
  · simp [apply_white_patch_white_balance]
  · simp [apply_auto_levels]
  · cases img <;> simp [apply_white_patch_white_balance, imgWidth]
  · simp [apply_white_patch_white_balance, imgHeight]
  · cases img <;> simp [apply_auto_levels, imgWidth]
  · simp [apply_auto_levels, imgHeight]

/-! ### Helper lemmas: pixel maps and channel projections -/

lemma map_id_of_mem {α : Type} (l : List α) (f : α → α) (h : ∀ x ∈ l, f x = x) :
    l.map f = l := by
  induction l with
  | nil => rfl
  | cons x t ih =>
      rw [List.map_cons, h x (List.mem_cons_self x t),
        ih fun y hy => h y (List.mem_cons_of_mem x hy)]

lemma pixels_map (img : Img) (f : Pix → Pix) :
    pixels (img.map (List.map f)) = (pixels img).map f :=
  (List.map_flatten f img).symm

lemma mem_pixels (img : Img) (row : List Pix) (p : Pix)
    (hrow : row ∈ img) (hp : p ∈ row) : p ∈ pixels img :=
  List.mem_flatten.mpr ⟨row, hrow, hp⟩

lemma pixAt_map (img : Img) (f : Pix → Pix) (x y : Int) :
    pixAt (img.map (List.map f)) x y = (pixAt img x y).map f := by
  unfold pixAt
  split
  · rw [List.getElem?_map]
    cases himg : img[y.toNat]? with
    | none => rfl
    | some row => simp [List.getElem?_map]
  · rfl

lemma mem_pixels_of_pixAt (img : Img) (x y : Int) (p : Pix)
    (h : pixAt img x y = some p) : p ∈ pixels img := by
  unfold pixAt at h
  split at h
  · cases himg : img[y.toNat]? with
    | none => rw [himg] at h; cases h
    | some row =>
        rw [himg] at h
        exact mem_pixels img row p (List.getElem?_mem himg) (List.getElem?_mem h)
  · cases h

lemma reds_map (img : Img) (f : Pix → Pix) :
    reds (img.map (List.map f)) = (pixels img).map fun p => (f p).1 := by
  rw [reds, pixels_map, List.map_map]; rfl

lemma greens_map (img : Img) (f : Pix → Pix) :
    greens (img.map (List.map f)) = (pixels img).map fun p => (f p).2.1 := by
  rw [greens, pixels_map, List.map_map]; rfl

lemma blues_map (img : Img) (f : Pix → Pix) :
    blues (img.map (List.map f)) = (pixels img).map fun p => (f p).2.2 := by
  rw [blues, pixels_map, List.map_map]; rfl

/-! ### Helper lemmas: the auto-levels sample map -/

lemma levelMap_le (m M v : Nat) : levelMap m M v ≤ 255 := by
  unfold levelMap; split <;> exact Nat.min_le_right _ _

lemma levelMap_min_self (m M : Nat) (h : m < M) : levelMap m M m = 0 := by
  simp [levelMap, h]

lemma levelMap_max_self (m M : Nat) (h : m < M) : levelMap m M M = 255 := by
  rw [levelMap, if_pos h, Nat.mul_div_cancel_left 255 (Nat.sub_pos_of_lt h)]
  rfl

lemma levelMap_uniform (m M v : Nat) (h : ¬ m < M) : levelMap m M v = min v 255 := by
  rw [levelMap, if_neg h]

lemma levelMap_zero_255 (w : Nat) (hw : w ≤ 255) : levelMap 0 255 w = w := by
  rw [levelMap, if_pos (by norm_num), Nat.sub_zero, Nat.sub_zero,
    Nat.mul_div_cancel w (by norm_num)]
  exact Nat.min_eq_left hw

/-- The heart of auto-levels idempotence, one channel at a time: after one
stretch the channel minimum is 0 and the channel maximum is 255 (or the
channel is still uniform), so the second stretch fixes every stretched
sample. -/
lemma levelMap_idem (vs : List Nat) (v : Nat) (hv : v ∈ vs) :
    levelMap (minCh (vs.map (levelMap (minCh vs) (maxCh vs))))
      (maxCh (vs.map (levelMap (minCh vs) (maxCh vs))))
      (levelMap (minCh vs) (maxCh vs) v) = levelMap (minCh vs) (maxCh vs) v := by
  have hne : vs ≠ [] := List.ne_nil_of_mem hv
  have hne' : vs.map (levelMap (minCh vs) (maxCh vs)) ≠ [] := by
    simpa using hne
  by_cases hmM : minCh vs < maxCh vs
  · have h0 : (0 : Nat) ∈ vs.map (levelMap (minCh vs) (maxCh vs)) := by
      have := List.mem_map_of_mem (levelMap (minCh vs) (maxCh vs)) (minCh_mem vs hne)
      rwa [levelMap_min_self _ _ hmM] at this
    have h255 : (255 : Nat) ∈ vs.map (levelMap (minCh vs) (maxCh vs)) := by
      have := List.mem_map_of_mem (levelMap (minCh vs) (maxCh vs)) (maxCh_mem vs hne)
      rwa [levelMap_max_self _ _ hmM] at this
    have hmin' : minCh (vs.map (levelMap (minCh vs) (maxCh vs))) = 0 :=
      Nat.eq_zero_of_le_zero (minCh_le _ 0 h0)
    have hmax' : maxCh (vs.map (levelMap (minCh vs) (maxCh vs))) = 255 := by
      refine Nat.le_antisymm ?_ (le_maxCh _ 255 h255)
      obtain ⟨w, _, hw⟩ := List.mem_map.mp (maxCh_mem _ hne')
      rw [← hw]
      exact levelMap_le _ _ _
    rw [hmin', hmax']
    exact levelMap_zero_255 _ (levelMap_le _ _ _)
  · have hall : ∀ x ∈ vs, x = minCh vs := by
      intro x hx
      exact Nat.le_antisymm
        (Nat.le_trans (le_maxCh vs x hx) (Nat.not_lt.mp hmM)) (minCh_le vs x hx)
    have hc : ∀ w ∈ vs.map (levelMap (minCh vs) (maxCh vs)), w = min (minCh vs) 255 := by
      intro w hw
      obtain ⟨x, hx, hxw⟩ := List.mem_map.mp hw
      rw [← hxw, levelMap_uniform _ _ _ hmM, hall x hx]
    have hm' : minCh (vs.map (levelMap (minCh vs) (maxCh vs))) = min (minCh vs) 255 :=
      hc _ (minCh_mem _ hne')
    have hM' : maxCh (vs.map (levelMap (minCh vs) (maxCh vs))) = min (minCh vs) 255 :=
      hc _ (maxCh_mem _ hne')
    rw [hm', hM', levelMap_uniform _ _ _ (lt_irrefl _),
      levelMap_uniform _ _ _ hmM]
    exact Nat.min_eq_left (Nat.min_le_right v 255)

/-- If the per-pixel map of `apply_auto_levels` fixes every pixel of an
image, the whole pass fixes the image. -/
lemma auto_levels_fixed (img : Img)
    (hfix : ∀ p ∈ pixels img,
      alPix (minCh (reds img)) (maxCh (reds img)) (minCh (greens img))
        (maxCh (greens img)) (minCh (blues img)) (maxCh (blues img)) p = p) :
    apply_auto_levels img = img := by
  show img.map (List.map (alPix (minCh (reds img)) (maxCh (reds img))
    (minCh (greens img)) (maxCh (greens img))
    (minCh (blues img)) (maxCh (blues img)))) = img
  refine map_id_of_mem _ _ fun row hrow => map_id_of_mem _ _ fun p hp =>
    hfix p (mem_pixels img row p hrow hp)

lemma reds_auto (img : Img) :
    reds (apply_auto_levels img)
      = (reds img).map (levelMap (minCh (reds img)) (maxCh (reds img))) := by
  show reds (img.map (List.map (alPix (minCh (reds img)) (maxCh (reds img))
    (minCh (greens img)) (maxCh (greens img))
    (minCh (blues img)) (maxCh (blues img)))) ) = _
  rw [reds_map, reds, List.map_map]
  rfl

lemma greens_auto (img : Img) :
    greens (apply_auto_levels img)
      = (greens img).map (levelMap (minCh (greens img)) (maxCh (greens img))) := by
  show greens (img.map (List.map (alPix (minCh (reds img)) (maxCh (reds img))
    (minCh (greens img)) (maxCh (greens img))
    (minCh (blues img)) (maxCh (blues img)))) ) = _
  rw [greens_map, greens, List.map_map]
  rfl

lemma blues_auto (img : Img) :
    blues (apply_auto_levels img)
      = (blues img).map (levelMap (minCh (blues img)) (maxCh (blues img))) := by
  show blues (img.map (List.map (alPix (minCh (reds img)) (maxCh (reds img))
    (minCh (greens img)) (maxCh (greens img))
    (minCh (blues img)) (maxCh (blues img)))) ) = _
  rw [blues_map, blues, List.map_map]
  rfl

/-- C3: `applyAutoLevels` is idempotent — the second pass is a no-op because
after the first pass each stretched channel has min 0 and max 255, and each
uniform channel stays uniform. -/
theorem C3_auto_levels_idempotent (img : Img) :
    apply_auto_levels (apply_auto_levels img) = apply_auto_levels img := by
  apply auto_levels_fixed
  rw [reds_auto, greens_auto, blues_auto]
  intro p hp
  have hp' : p ∈ (pixels img).map (alPix (minCh (reds img)) (maxCh (reds img))
      (minCh (greens img)) (maxCh (greens img))
      (minCh (blues img)) (maxCh (blues img))) := by
    rw [← pixels_map]
    exact hp
  obtain ⟨q, hq, hqp⟩ := List.mem_map.mp hp'
  subst hqp
  exact Prod.ext (levelMap_idem (reds img) q.1 (List.mem_map_of_mem _ hq))
    (Prod.ext (levelMap_idem (greens img) q.2.1 (List.mem_map_of_mem _ hq))
      (levelMap_idem (blues img) q.2.2 (List.mem_map_of_mem _ hq)))

/-! ### C4: the per-channel remap formula, as the specification words it -/

/-- The auto-levels remap in the specification's words: for a channel with
`minC < maxC` remap `v ↦ (v - minC) * 255 / (maxC - minC)` in exact rational
arithmetic, clip to `[0, 255]` and truncate to 8 bits; leave a uniform
channel unmodified. -/
def levelsSpecVal (m M v : Nat) : Nat :=
  if m < M then (⌊min (max (((v : ℚ) - m) * 255 / ((M : ℚ) - m)) 0) 255⌋).toNat
  else v

/-- The source's natural-division sample map agrees with the specification's
rational formula on every genuine sample (one lying between the channel's
min and max, and 8-bit). -/
lemma levelMap_eq_spec (m M v : Nat) (hmv : m ≤ v) (hvM : v ≤ M)
    (h255 : v ≤ 255) : levelMap m M v = levelsSpecVal m M v := by
  unfold levelMap levelsSpecVal
  by_cases hmM : m < M
  · rw [if_pos hmM, if_pos hmM]
    have hb : 0 < M - m := Nat.sub_pos_of_lt hmM
    have hb0 : (0 : ℚ) < ((M - m : Nat) : ℚ) := by exact_mod_cast hb
    have hq : ((v : ℚ) - m) * 255 / ((M : ℚ) - m)
        = (((v - m) * 255 : Nat) : ℚ) / ((M - m : Nat) : ℚ) := by
      rw [Nat.cast_mul, Nat.cast_sub hmv, Nat.cast_sub (Nat.le_of_lt hmM)]
      norm_num
    have h0 : (0 : ℚ) ≤ (((v - m) * 255 : Nat) : ℚ) / ((M - m : Nat) : ℚ) :=
      div_nonneg (Nat.cast_nonneg _) (Nat.cast_nonneg _)
    rw [hq, max_eq_left h0]
    have hfloor : ⌊(((v - m) * 255 : Nat) : ℚ) / ((M - m : Nat) : ℚ)⌋
        = (((v - m) * 255 / (M - m) : Nat) : ℤ) := by
      rw [Rat.floor_natCast_div_natCast]
      exact_mod_cast rfl
    rcases le_total ((((v - m) * 255 : Nat) : ℚ) / ((M - m : Nat) : ℚ)) 255
      with hle | hle
    · rw [min_eq_left hle, hfloor, Int.toNat_natCast]
      refine Nat.min_eq_left ?_
      have hcast : (((v - m) * 255 / (M - m) : Nat) : ℚ) ≤ 255 := by
        calc (((v - m) * 255 / (M - m) : Nat) : ℚ)
            = ((((v - m) * 255 / (M - m) : Nat) : ℤ) : ℚ) := by push_cast; rfl
          _ = ((⌊(((v - m) * 255 : Nat) : ℚ) / ((M - m : Nat) : ℚ)⌋ : ℤ) : ℚ) := by
              rw [hfloor]
          _ ≤ (((v - m) * 255 : Nat) : ℚ) / ((M - m : Nat) : ℚ) := Int.floor_le _
          _ ≤ 255 := hle
      exact_mod_cast hcast
    · rw [min_eq_right hle]
      have hge : 255 ≤ (v - m) * 255 / (M - m) := by
        have h1 : (255 : ℚ) * ((M - m : Nat) : ℚ) ≤ (((v - m) * 255 : Nat) : ℚ) := by
          rw [← le_div_iff₀ hb0]
          exact hle
        have h2 : 255 * (M - m) ≤ (v - m) * 255 := by exact_mod_cast h1
        exact (Nat.le_div_iff_mul_le hb).mpr h2
      rw [Nat.min_eq_right hge]
      have h255f : ⌊(255 : ℚ)⌋ = (255 : ℤ) := by norm_num
      rw [h255f]
      rfl
  · rw [if_neg hmM, if_neg hmM]
    exact Nat.min_eq_left h255

/-- C4: `applyAutoLevels` processes the three channels independently — every
pixel of the output is the input pixel with each sample remapped by the
specification's per-channel formula, using that channel's own min and max
(so a uniform channel is left unmodified); no global min or max is shared
between channels. -/
theorem C4_auto_levels_per_channel (img : Img)
    (h8 : ∀ p ∈ pixels img, p.1 ≤ 255 ∧ p.2.1 ≤ 255 ∧ p.2.2 ≤ 255)
    (x y : Int) (p : Pix) (hp : pixAt img x y = some p) :
    pixAt (apply_auto_levels img) x y = some
      (levelsSpecVal (minCh (reds img)) (maxCh (reds img)) p.1,
       levelsSpecVal (minCh (greens img)) (maxCh (greens img)) p.2.1,
       levelsSpecVal (minCh (blues img)) (maxCh (blues img)) p.2.2) := by
  have hmem := mem_pixels_of_pixAt img x y p hp
  obtain ⟨h8r, h8g, h8b⟩ := h8 p hmem
  have hr : p.1 ∈ reds img := List.mem_map_of_mem _ hmem
  have hg : p.2.1 ∈ greens img := List.mem_map_of_mem _ hmem
  have hb : p.2.2 ∈ blues img := List.mem_map_of_mem _ hmem
  show pixAt (img.map (List.map (alPix (minCh (reds img)) (maxCh (reds img))
    (minCh (greens img)) (maxCh (greens img))
    (minCh (blues img)) (maxCh (blues img))))) x y = _
  rw [pixAt_map, hp]
  show some (alPix _ _ _ _ _ _ p) = _
  rw [alPix,
    levelMap_eq_spec _ _ _ (minCh_le _ _ hr) (le_maxCh _ _ hr) h8r,
    levelMap_eq_spec _ _ _ (minCh_le _ _ hg) (le_maxCh _ _ hg) h8g,
    levelMap_eq_spec _ _ _ (minCh_le _ _ hb) (le_maxCh _ _ hb) h8b]

/-- Witness for C4 at a concrete two-pixel image. -/
theorem C4_auto_levels_per_channel_witness :
    pixAt (apply_auto_levels [[(0, 5, 255), (10, 5, 7)]]) 1 0 = some
      (levelsSpecVal (minCh (reds [[(0, 5, 255), (10, 5, 7)]]))
        (maxCh (reds [[(0, 5, 255), (10, 5, 7)]])) 10,
       levelsSpecVal (minCh (greens [[(0, 5, 255), (10, 5, 7)]]))
        (maxCh (greens [[(0, 5, 255), (10, 5, 7)]])) 5,
       levelsSpecVal (minCh (blues [[(0, 5, 255), (10, 5, 7)]]))
        (maxCh (blues [[(0, 5, 255), (10, 5, 7)]])) 7) :=
  C4_auto_levels_per_channel [[(0, 5, 255), (10, 5, 7)]] (by decide) 1 0
    (10, 5, 7) (by decide)

/-! ### C6: centering on the white canvas -/

/-- The paste semantics in the specification's words: a canvas pixel shows
the source pixel at its position minus the offsets when that position lies
inside the source, and the pure white fill otherwise. -/
def pasteSpecPix (src : Img) (xo yo : Int) (x y : Nat) : Pix :=
  match pixAt src ((x : Int) - xo) ((y : Int) - yo) with
  | some p => p
  | none => whitePix

lemma pixAt_center (src : Img) (canvasSize : Dim) (x y : Nat)
    (hx : x < canvasSize.1) (hy : y < canvasSize.2) :
    pixAt (center_image_on_canvas src canvasSize) (x : Int) (y : Int)
      = some (pasteSpecPix src
          (center_offsets canvasSize (imgWidth src, imgHeight src)).1
          (center_offsets canvasSize (imgWidth src, imgHeight src)).2 x y) := by
  unfold pixAt center_image_on_canvas
  rw [if_pos ⟨Int.natCast_nonneg x, Int.natCast_nonneg y⟩, Int.toNat_natCast,
    Int.toNat_natCast, List.getElem?_map, List.getElem?_range hy]
  simp only [Option.map_some', Option.some_bind, List.getElem?_map,
    List.getElem?_range hx]
  rfl

lemma map_length_of_forall {A : Type} (l : List A) (g : A → List Pix) (w : Nat)
    (h : ∀ a ∈ l, (g a).length = w) :
    (l.map g).map List.length = List.replicate l.length w := by
  induction l with
  | nil => rfl
  | cons a t ih =>
      simp only [List.map_cons, List.length_cons, List.replicate_succ,
        h a (List.mem_cons_self a t)]
      rw [ih fun b hb => h b (List.mem_cons_of_mem a hb)]

lemma center_image_shape (src : Img) (canvasSize : Dim) :
    (center_image_on_canvas src canvasSize).map List.length
      = List.replicate canvasSize.2 canvasSize.1 := by
  unfold center_image_on_canvas
  refine Eq.trans (map_length_of_forall (List.range canvasSize.2) _ canvasSize.1
    fun a _ => by simp) ?_
  rw [List.length_range]

/-- C6 (amended): `centerOnCanvas` creates a canvas-sized image filled with
pure white `(255, 255, 255)` and pastes the source at integer offsets
`((canvasW - srcW) // 2, (canvasH - srcH) // 2)` computed with Python floor
division (rounding toward negative infinity — this agrees with truncating
division whenever the source fits the canvas), with no precondition that the
source fits; in particular a 500×700 source on an 800×1000 canvas is placed
at offset (150, 150). -/
theorem C6_center_floor_offsets (src : Img) (canvasSize : Dim) (x y : Nat)
    (hx : x < canvasSize.1) (hy : y < canvasSize.2) :
    ((center_image_on_canvas src canvasSize).map List.length
        = List.replicate canvasSize.2 canvasSize.1) ∧
    center_offsets canvasSize (imgWidth src, imgHeight src)
        = (((canvasSize.1 : Int) - imgWidth src).fdiv 2,
           ((canvasSize.2 : Int) - imgHeight src).fdiv 2) ∧
    pixAt (center_image_on_canvas src canvasSize) (x : Int) (y : Int)
        = some (pasteSpecPix src
            (((canvasSize.1 : Int) - imgWidth src).fdiv 2)
            (((canvasSize.2 : Int) - imgHeight src).fdiv 2) x y) ∧
    center_offsets (800, 1000) (500, 700) = (150, 150) :=
  ⟨center_image_shape src canvasSize, rfl, pixAt_center src canvasSize x y hx hy,
   by decide⟩

/-- Witness for C6 on a one-pixel source and canvas. -/
theorem C6_center_floor_offsets_witness :
    ((center_image_on_canvas [[(7, 8, 9)]] (1, 1)).map List.length
        = List.replicate (1 : Nat) (1 : Nat)) ∧
    center_offsets (1, 1) (imgWidth [[(7, 8, 9)]], imgHeight [[(7, 8, 9)]])
        = ((((1 : Nat) : Int) - imgWidth [[(7, 8, 9)]]).fdiv 2,
           (((1 : Nat) : Int) - imgHeight [[(7, 8, 9)]]).fdiv 2) ∧
    pixAt (center_image_on_canvas [[(7, 8, 9)]] (1, 1))
        (((0 : Nat) : Int)) (((0 : Nat) : Int))
        = some (pasteSpecPix [[(7, 8, 9)]]
            ((((1 : Nat) : Int) - imgWidth [[(7, 8, 9)]]).fdiv 2)
            ((((1 : Nat) : Int) - imgHeight [[(7, 8, 9)]]).fdiv 2) 0 0) ∧
    center_offsets (800, 1000) (500, 700) = (150, 150) :=
  C6_center_floor_offsets [[(7, 8, 9)]] (1, 1) 0 0 (by decide) (by decide)

/-- C6 counterexample: the claim's truncating division disagrees with the
source's floor division as soon as the source exceeds the canvas by an odd
amount — for a 3×1 source on a 2×2 canvas the code computes offsets
`(-1, 0)` while truncating division gives `(0, 0)`, and the composited
top-left pixel is the source's middle pixel, not the leftmost pixel that
truncating offsets would paste there. -/
theorem C6_truncating_division_counterexample :
    center_offsets (2, 2) (3, 1) = (-1, 0) ∧
    (((2 : Int) - 3).tdiv 2, ((2 : Int) - 1).tdiv 2) = (0, 0) ∧
    center_offsets (2, 2) (3, 1)
      ≠ (((2 : Int) - 3).tdiv 2, ((2 : Int) - 1).tdiv 2) ∧
    pixAt (center_image_on_canvas [[(1, 1, 1), (2, 2, 2), (3, 3, 3)]] (2, 2)) 0 0
      = some (2, 2, 2) ∧
    pasteSpecPix [[(1, 1, 1), (2, 2, 2), (3, 3, 3)]] (((2 : Int) - 3).tdiv 2)
      (((2 : Int) - 1).tdiv 2) 0 0 = (1, 1, 1) ∧
    ((2 : Nat), (2 : Nat), (2 : Nat)) ≠ ((1 : Nat), (1 : Nat), (1 : Nat)) :=
  ⟨by decide, by decide, by decide, by decide, by decide, by decide⟩

/-! ### C1: the size histogram is a first-encounter-ordered exact tally -/

/-- The count recorded for a key in a histogram accumulator (0 if absent). -/
def cnt : List (Dim × Nat) → Dim → Nat
  | [], _ => 0
  | (k, c) :: rest, s => if k = s then c else cnt rest s

lemma cnt_bump_self (acc : List (Dim × Nat)) (s : Dim) :
    cnt (bump acc s) s = cnt acc s + 1 := by
  induction acc with
  | nil => simp [bump, cnt]
  | cons kc rest ih =>
      obtain ⟨k, c⟩ := kc
      by_cases hk : k = s
      · simp [bump, cnt, hk]
      · simp [bump, cnt, hk, ih]

lemma cnt_bump_other (acc : List (Dim × Nat)) (s t : Dim) (h : t ≠ s) :
    cnt (bump acc s) t = cnt acc t := by
  induction acc with
  | nil => simp [bump, cnt, Ne.symm h]
  | cons kc rest ih =>
      obtain ⟨k, c⟩ := kc
      by_cases hk : k = s
      · subst hk
        simp [bump, cnt, Ne.symm h]
      · simp [bump, cnt, hk, ih]

lemma keys_bump (acc : List (Dim × Nat)) (s : Dim) :
    (bump acc s).map Prod.fst =
      if s ∈ acc.map Prod.fst then acc.map Prod.fst
      else acc.map Prod.fst ++ [s] := by
  induction acc with
  | nil => simp [bump]
  | cons kc rest ih =>
      obtain ⟨k, c⟩ := kc
      by_cases hk : k = s
      · subst hk
        simp [bump]
      · by_cases hs : s ∈ rest.map Prod.fst
        · simp [bump, hk, ih, hs, Ne.symm hk]
        · simp [bump, hk, ih, hs, Ne.symm hk]

lemma tally_append (l : List Dim) (s : Dim) :
    tally (l ++ [s]) = bump (tally l) s := by
  simp [tally, List.foldl_append]

lemma cnt_tally (l : List Dim) (s : Dim) : cnt (tally l) s = l.count s := by
  induction l using List.reverseRecOn with
  | nil => rfl
  | append_singleton l a ih =>
      rw [tally_append]
      by_cases hs : s = a
      · subst hs
        rw [cnt_bump_self, ih]
        simp
      · rw [cnt_bump_other _ _ _ hs, ih]
        simp [List.count_append, hs]

lemma mem_keys_tally (l : List Dim) : ∀ s : Dim,
    s ∈ (tally l).map Prod.fst ↔ s ∈ l := by
  induction l using List.reverseRecOn with
  | nil => simp [tally]
  | append_singleton l a ih =>
      intro s
      rw [tally_append, keys_bump]
      by_cases hmem : a ∈ (tally l).map Prod.fst
      · rw [if_pos hmem]
        have ha : a ∈ l := (ih a).mp hmem
        simp only [List.mem_append, List.mem_singleton, ih s]
        constructor
        · exact Or.inl
        · rintro (hs | rfl)
          · exact hs
          · exact ha
      · rw [if_neg hmem]
        simp [ih s]

lemma nodup_keys_tally (l : List Dim) : ((tally l).map Prod.fst).Nodup := by
  induction l using List.reverseRecOn with
  | nil => simp [tally]
  | append_singleton l a ih =>
      rw [tally_append, keys_bump]
      by_cases hmem : a ∈ (tally l).map Prod.fst
      · rwa [if_pos hmem]
      · rw [if_neg hmem]
        rw [List.nodup_append]
        exact ⟨ih, List.nodup_singleton a,
          fun x hx hxa => hmem (by rwa [List.mem_singleton.mp hxa] at hx)⟩

lemma cnt_of_mem_nodup (acc : List (Dim × Nat)) (k : Dim) (c : Nat)
    (hn : (acc.map Prod.fst).Nodup) (hm : (k, c) ∈ acc) : cnt acc k = c := by
  induction acc with
  | nil => cases hm
  | cons kc rest ih =>
      obtain ⟨k0, c0⟩ := kc
      rcases List.mem_cons.mp hm with heq | hm2
      · rw [Prod.mk.injEq] at heq
        obtain ⟨rfl, rfl⟩ := heq
        simp [cnt]
      · have hk0 : k0 ≠ k := by
          intro e
          apply (List.nodup_cons.mp hn).1
          rw [e]
          exact List.mem_map.mpr ⟨(k, c), hm2, rfl⟩
        simp only [cnt, if_neg hk0]
        exact ih (List.nodup_cons.mp hn).2 hm2

lemma exists_pair_of_mem_keys (acc : List (Dim × Nat)) (s : Dim)
    (h : s ∈ acc.map Prod.fst) : ∃ c, (s, c) ∈ acc := by
  obtain ⟨⟨k1, c1⟩, hkc, he⟩ := List.mem_map.mp h
  exact ⟨c1, by rwa [← he]⟩

/-- The index of the first occurrence of a size in the scanned sequence. -/
def firstIdx : List Dim → Dim → Nat
  | [], _ => 0
  | a :: t, s => if a = s then 0 else firstIdx t s + 1

lemma firstIdx_append_left (l1 l2 : List Dim) (s : Dim) (h : s ∈ l1) :
    firstIdx (l1 ++ l2) s = firstIdx l1 s := by
  induction l1 with
  | nil => cases h
  | cons a t ih =>
      by_cases ha : a = s
      · simp [firstIdx, ha]
      · rcases List.mem_cons.mp h with rfl | ht
        · exact absurd rfl ha
        · simp [firstIdx, ha, ih ht]

lemma firstIdx_append_right (l1 l2 : List Dim) (s : Dim) (h : s ∉ l1) :
    firstIdx (l1 ++ l2) s = l1.length + firstIdx l2 s := by
  induction l1 with
  | nil => simp [firstIdx]
  | cons a t ih =>
      have ha : a ≠ s := fun e => h (e ▸ List.mem_cons_self a t)
      have ht : s ∉ t := fun e => h (List.mem_cons_of_mem a e)
      simp [firstIdx, ha, ih ht]
      omega

lemma firstIdx_lt_length (l : List Dim) (s : Dim) (h : s ∈ l) :
    firstIdx l s < l.length := by
  induction l with
  | nil => cases h
  | cons a t ih =>
      by_cases ha : a = s
      · simp [firstIdx, ha]
      · rcases List.mem_cons.mp h with rfl | ht
        · exact absurd rfl ha
        · simp only [firstIdx, if_neg ha, List.length_cons]
          exact Nat.succ_lt_succ (ih ht)

lemma pairwise_keys_tally (l : List Dim) :
    ((tally l).map Prod.fst).Pairwise fun a b => firstIdx l a < firstIdx l b := by
  induction l using List.reverseRecOn with
  | nil => simp [tally]
  | append_singleton l a ih =>
      rw [tally_append, keys_bump]
      by_cases hmem : a ∈ (tally l).map Prod.fst
      · rw [if_pos hmem]
        refine List.Pairwise.imp_of_mem ?_ ih
        intro b c hb hc hbc
        rw [firstIdx_append_left l [a] b ((mem_keys_tally l b).mp hb),
          firstIdx_append_left l [a] c ((mem_keys_tally l c).mp hc)]
        exact hbc
      · rw [if_neg hmem]
        rw [List.pairwise_append]
        refine ⟨?_, List.pairwise_singleton _ _, ?_⟩
        · refine List.Pairwise.imp_of_mem ?_ ih
          intro b c hb hc hbc
          rw [firstIdx_append_left l [a] b ((mem_keys_tally l b).mp hb),
            firstIdx_append_left l [a] c ((mem_keys_tally l c).mp hc)]
          exact hbc
        · intro b hb c hc
          rw [List.mem_singleton.mp hc]
          have hbl : b ∈ l := (mem_keys_tally l b).mp hb
          have hal : a ∉ l := fun ha => hmem ((mem_keys_tally l a).mpr ha)
          rw [firstIdx_append_left l [a] b hbl, firstIdx_append_right l [a] a hal]
          have hlt := firstIdx_lt_length l b hbl
          simp only [firstIdx, if_pos rfl]
          omega

lemma tally_ne_nil (l : List Dim) (hl : l ≠ []) : tally l ≠ [] := by
  obtain ⟨a, l2, rfl⟩ := List.exists_cons_of_ne_nil hl
  show ((a :: l2).foldl bump []) ≠ []
  rw [List.foldl_cons]
  exact foldl_bump_ne_nil l2 (bump [] a) (bump_ne_nil [] a)

/-! ### C1: Python max picks the first item with the maximal count -/

lemma pickMax_cons (h x : Dim × Nat) (t : List (Dim × Nat)) :
    pickMax h (x :: t) = pickMax (if h.2 < x.2 then x else h) t := rfl

lemma pickMax_mem (h : Dim × Nat) (t : List (Dim × Nat)) :
    pickMax h t = h ∨ pickMax h t ∈ t := by
  induction t generalizing h with
  | nil => exact Or.inl rfl
  | cons x t ih =>
      rw [pickMax_cons]
      by_cases hlt : h.2 < x.2
      · rw [if_pos hlt]
        rcases ih x with hc | hc
        · exact Or.inr (by rw [hc]; exact List.mem_cons_self x t)
        · exact Or.inr (List.mem_cons_of_mem x hc)
      · rw [if_neg hlt]
        rcases ih h with hc | hc
        · exact Or.inl hc
        · exact Or.inr (List.mem_cons_of_mem x hc)

lemma le_pickMax_init (h : Dim × Nat) (t : List (Dim × Nat)) :
    h.2 ≤ (pickMax h t).2 := by
  induction t generalizing h with
  | nil => exact Nat.le_refl _
  | cons x t ih =>
      rw [pickMax_cons]
      by_cases hlt : h.2 < x.2
      · rw [if_pos hlt]
        exact Nat.le_trans (Nat.le_of_lt hlt) (ih x)
      · rw [if_neg hlt]
        exact ih h

lemma le_pickMax_mem (h : Dim × Nat) (t : List (Dim × Nat)) (x : Dim × Nat)
    (hx : x ∈ t) : x.2 ≤ (pickMax h t).2 := by
  induction t generalizing h with
  | nil => cases hx
  | cons y t ih =>
      rw [pickMax_cons]
      rcases List.mem_cons.mp hx with rfl | hxt
      · by_cases hlt : h.2 < x.2
        · rw [if_pos hlt]
          exact le_pickMax_init x t
        · rw [if_neg hlt]
          exact Nat.le_trans (Nat.not_lt.mp hlt) (le_pickMax_init h t)
      · exact ih _ hxt

/-- Python `max` keeps the first item with the maximal key: the scanned list
splits around the winner, and everything strictly before the winner has a
strictly smaller count. -/
lemma pickMax_first (h : Dim × Nat) (t : List (Dim × Nat)) :
    ∃ t1 t2, h :: t = t1 ++ pickMax h t :: t2 ∧
      ∀ q ∈ t1, q.2 < (pickMax h t).2 := by
  induction t generalizing h with
  | nil => exact ⟨[], [], rfl, by simp⟩
  | cons x t ih =>
      rw [pickMax_cons]
      by_cases hlt : h.2 < x.2
      · rw [if_pos hlt]
        obtain ⟨t1, t2, hdec, hstrict⟩ := ih x
        refine ⟨h :: t1, t2, ?_, ?_⟩
        · rw [List.cons_append, ← hdec]
        · intro q hq
          rcases List.mem_cons.mp hq with rfl | hq2
          · exact Nat.lt_of_lt_of_le hlt (le_pickMax_init x t)
          · exact hstrict q hq2
      · rw [if_neg hlt]
        obtain ⟨t1, t2, hdec, hstrict⟩ := ih h
        cases t1 with
        | nil =>
            have hph : pickMax h t = h := by
              rw [List.nil_append] at hdec
              exact (List.cons.injEq .. ▸ hdec).1.symm
            refine ⟨[], x :: t, ?_, by simp⟩
            rw [List.nil_append, hph]
        | cons h0 t1tail =>
            rw [List.cons_append] at hdec
            have hh0 : h0 = h := ((List.cons.injEq .. ▸ hdec).1).symm
            have htl : t = t1tail ++ pickMax h t :: t2 := (List.cons.injEq .. ▸ hdec).2
            have hhp : h.2 < (pickMax h t).2 := by
              have := hstrict h0 (List.mem_cons_self h0 t1tail)
              rwa [hh0] at this
            refine ⟨h :: x :: t1tail, t2, ?_, ?_⟩
            · rw [List.cons_append, List.cons_append, ← htl]
            · intro q hq
              rcases List.mem_cons.mp hq with rfl | hq2
              · exact hhp
              · rcases List.mem_cons.mp hq2 with rfl | hq3
                · exact Nat.lt_of_le_of_lt (Nat.not_lt.mp hlt) hhp
                · have := hstrict q (List.mem_cons_of_mem h0 hq3)
                  exact this

/-- C1: on a nonempty sequence of sizes, `computeCanonicalCanvas` returns the
size with the highest occurrence count — ties broken by the earliest first
occurrence — normalized to portrait by swapping the axes when the winner is
landscape (so the result always has height ≥ width); in particular the input
`(800,600), (800,600), (600,800)` yields `(600,800)`. -/
theorem C1_canonical_canvas_mode (l : List Dim) (hl : l ≠ []) :
    (∃ d, d ∈ l ∧
        (∀ x ∈ l, l.count x ≤ l.count d) ∧
        (∀ x ∈ l, l.count x = l.count d → firstIdx l d ≤ firstIdx l x) ∧
        get_portrait_canvas_size l = some (if d.2 < d.1 then (d.2, d.1) else d)) ∧
    (∀ a b, get_portrait_canvas_size l = some (a, b) → a ≤ b) ∧
    get_portrait_canvas_size [(800, 600), (800, 600), (600, 800)]
      = some (600, 800) := by
  rcases he : tally l with _ | ⟨h, t⟩
  · exact absurd he (tally_ne_nil l hl)
  · have hp_mem : pickMax h t ∈ tally l := by
      rw [he]
      rcases pickMax_mem h t with hc | hc
      · rw [hc]; exact List.mem_cons_self h t
      · exact List.mem_cons_of_mem h hc
    have hd_keys : (pickMax h t).1 ∈ (tally l).map Prod.fst :=
      List.mem_map_of_mem Prod.fst hp_mem
    have hd_mem : (pickMax h t).1 ∈ l := (mem_keys_tally l _).mp hd_keys
    have hcnt_d : cnt (tally l) (pickMax h t).1 = (pickMax h t).2 :=
      cnt_of_mem_nodup (tally l) _ _ (nodup_keys_tally l) hp_mem
    have hcount_d : l.count (pickMax h t).1 = (pickMax h t).2 := by
      rw [← cnt_tally l, hcnt_d]
    refine ⟨⟨(pickMax h t).1, hd_mem, ?_, ?_, ?_⟩, ?_, by decide⟩
    · intro x hx
      obtain ⟨c, hpair⟩ :=
        exists_pair_of_mem_keys (tally l) x ((mem_keys_tally l x).mpr hx)
      have hcx : l.count x = c := by
        rw [← cnt_tally l, cnt_of_mem_nodup (tally l) x c (nodup_keys_tally l) hpair]
      rw [hcx, hcount_d]
      rw [he] at hpair
      rcases List.mem_cons.mp hpair with heq | hmem
      · have h2c : h.2 = c := by rw [← heq]
        rw [← h2c]
        exact le_pickMax_init h t
      · exact le_pickMax_mem h t _ hmem
    · intro x hx hcnt_eq
      obtain ⟨c, hpair⟩ :=
        exists_pair_of_mem_keys (tally l) x ((mem_keys_tally l x).mpr hx)
      have hcx : l.count x = c := by
        rw [← cnt_tally l, cnt_of_mem_nodup (tally l) x c (nodup_keys_tally l) hpair]
      have hc_eq : c = (pickMax h t).2 := by rw [← hcx, hcnt_eq, hcount_d]
      obtain ⟨t1, t2, hdec, hstrict⟩ := pickMax_first h t
      have htally_dec : tally l = t1 ++ pickMax h t :: t2 := by rw [he, hdec]
      have hx_mem : (x, c) ∈ t1 ++ pickMax h t :: t2 := htally_dec ▸ hpair
      rcases List.mem_append.mp hx_mem with hin1 | hin2
      · exact absurd (hc_eq ▸ hstrict (x, c) hin1) (lt_irrefl _)
      · rcases List.mem_cons.mp hin2 with heq | hin3
        · rw [show x = (pickMax h t).1 from congrArg Prod.fst heq]
        · have hpw := pairwise_keys_tally l
          rw [htally_dec, List.map_append, List.map_cons] at hpw
          have hrel := (List.pairwise_cons.mp (List.pairwise_append.mp hpw).2.1).1
          exact Nat.le_of_lt (hrel x (List.mem_map_of_mem Prod.fst hin3))
    · simp only [get_portrait_canvas_size, he]
    · intro a b hab
      simp only [get_portrait_canvas_size, he] at hab
      by_cases hswap : (pickMax h t).1.2 < (pickMax h t).1.1
      · rw [if_pos hswap] at hab
        obtain ⟨rfl, rfl⟩ := Prod.mk.injEq .. ▸ (Option.some.inj hab).symm
        exact Nat.le_of_lt hswap
      · rw [if_neg hswap] at hab
        have hpab : (pickMax h t).1 = (a, b) := Option.some.inj hab
        rw [show a = (pickMax h t).1.1 from by rw [hpab],
          show b = (pickMax h t).1.2 from by rw [hpab]]
        exact Nat.not_lt.mp hswap

/-- Witness for C1 at the end-to-end example of the spec. -/
theorem C1_canonical_canvas_mode_witness :
    get_portrait_canvas_size [(800, 600), (800, 600), (600, 800)]
      = some (600, 800) :=
  (C1_canonical_canvas_mode [(800, 600), (800, 600), (600, 800)]
    (by decide)).2.2

end Absces
